import Mathlib

/-!
Verification of the merklepack Merkle-tree library.

Part A embeds the node layer (`pymerkle/tree/nodes.py`): leaves and internal
nodes live in a heap (`Store`) mapping integer handles to node data, mirroring
Python object identity; mutation is modelled as functional store update.

Part B models, from the specification, the tree construction, the audit-proof
generator and the proof verifier (those modules are not part of the sources
under study; only their tests are).
-/

namespace Merklepack

/-- A digest is an opaque byte sequence (spec section 3); bytes as naturals. -/
abbrev Digest := List Nat

/-- A record is a byte sequence to be hashed into a leaf. -/
abbrev Record := List Nat

/-- Text, as a sequence of code points (models a Python `str`). -/
abbrev Text := List Nat

/-- Object handles, playing the role of Python object identity. -/
abbrev Handle := Nat

/-- The variant of a node: a leaf, or an internal node holding handles to its
`left` and `right` parents (the two operands one level below, in the
library's inverted terminology). -/
inductive NKind where
  | lf : NKind
  | internal (left right : Handle) : NKind
deriving DecidableEq

/-- The mutable data of one node: its digest, its optional `child` back-link
(the node one level above), and its kind. Mirrors the slots
`__digest`, `__child`, `__left`, `__right` of `nodes.py`. -/
structure NData where
  digest : Digest
  child : Option Handle
  kind : NKind
deriving DecidableEq

/-- The heap of nodes: a partial map from handles to node data. -/
abbrev Store := Handle → Option NData

/-- Overwrite the data stored at one handle. -/
def setAt (s : Store) (n : Handle) (nd : NData) : Store :=
  fun m => if m = n then some nd else s m

/-- The `child` property of `__Node`: `none` models `NoChildException`. -/
def childOf (s : Store) (n : Handle) : Option Handle :=
  match s n with
  | none => none
  | some nd => nd.child

/-- `__Node.set_child`: re-point the `child` back-link of a node. -/
def set_child (s : Store) (n c : Handle) : Store :=
  match s n with
  | none => s
  | some nd => setAt s n { nd with child := some c }

/-- `Node.set_left`: re-point the `left` link of an internal node. -/
def set_left (s : Store) (n l : Handle) : Store :=
  match s n with
  | none => s
  | some nd =>
    match nd.kind with
    | .lf => s
    | .internal _ b => setAt s n { nd with kind := .internal l b }

/-- `Node.set_right`: re-point the `right` link of an internal node. -/
def set_right (s : Store) (n r : Handle) : Store :=
  match s n with
  | none => s
  | some nd =>
    match nd.kind with
    | .lf => s
    | .internal a _ => setAt s n { nd with kind := .internal a r }

/-- `Node.__init__`: construct an internal node over operands `a`, `b` at the
fresh handle `p`. The digest is computed by `hash2` from the operands'
digests before any link is set; on hashing failure `UndecodableRecord` is
raised (`.error ()`) and no node is created. On success the operands'
`child` links are re-pointed to the new node. -/
def node_init (hash2 : Digest → Digest → Except Unit Digest)
    (s : Store) (p a b : Handle) : Except Unit (Store × Handle) :=
  match s a, s b with
  | some na, some nb =>
    match hash2 na.digest nb.digest with
    | .error _ => .error ()
    | .ok d =>
      let s1 := setAt s p ⟨d, none, .internal a b⟩
      let s2 := set_child s1 a p
      let s3 := set_child s2 b p
      .ok (s3, p)
  | _, _ => .error ()

/-- `Node.recalculate_hash`: recompute an internal node's digest from the
current digests of its `left` and `right` parents. Raises (`.error ()`)
when the hash function fails or when the receiver is a leaf (a leaf has no
such method). -/
def recalculate_hash (hash2 : Digest → Digest → Except Unit Digest)
    (s : Store) (n : Handle) : Except Unit Store :=
  match s n with
  | none => .error ()
  | some nd =>
    match nd.kind with
    | .lf => .error ()
    | .internal a b =>
      match s a, s b with
      | some na, some nb =>
        match hash2 na.digest nb.digest with
        | .error _ => .error ()
        | .ok d => .ok (setAt s n { nd with digest := d })
      | _, _ => .error ()

/-- `__Node.is_left_parent`: `NoChildException` is absorbed into `false`; a
child that is a leaf would raise `NoParentException` (`.error ()`). -/
def is_left_parent (s : Store) (n : Handle) : Except Unit Bool :=
  match s n with
  | none => .error ()
  | some nd =>
    match nd.child with
    | none => .ok false
    | some c =>
      match s c with
      | none => .error ()
      | some cd =>
        match cd.kind with
        | .lf => .error ()
        | .internal a _ => .ok (decide (n = a))

/-- `__Node.is_right_parent`, symmetric to `is_left_parent`. -/
def is_right_parent (s : Store) (n : Handle) : Except Unit Bool :=
  match s n with
  | none => .error ()
  | some nd =>
    match nd.child with
    | none => .ok false
    | some c =>
      match s c with
      | none => .error ()
      | some cd =>
        match cd.kind with
        | .lf => .error ()
        | .internal _ b => .ok (decide (n = b))

/-- `__Node.descendant` for a non-negative degree: degree `0` returns the
node itself, otherwise the call recurses on the child, raising
`NoDescendantException` (`.error ()`) when the child chain ends first. -/
def descendant (s : Store) (n : Handle) : Nat → Except Unit Handle
  | 0 => .ok n
  | k + 1 =>
    match childOf s n with
    | none => .error ()
    | some c => descendant s c k

/-- The node reached from `n` by following the `child` link exactly `k`
times, iterating from the outside: `none` when the chain ends strictly
before `k` steps are completed. This is the specification-side notion that
`descendant` is measured against. -/
def follow (s : Store) : Nat → Handle → Option Handle
  | 0, n => some n
  | k + 1, n => (follow s k n).bind (childOf s)

/-- `__Node.descendant` for an arbitrary integer degree, with explicit fuel
standing for the (unbounded) Python recursion stack: `none` means the fuel
ran out before the call returned. -/
def descendantZ (s : Store) : Nat → Handle → Int → Option (Except Unit Handle)
  | 0, _, _ => none
  | fuel + 1, n, d =>
    if d = 0 then some (.ok n)
    else
      match childOf s n with
      | none => some (.error ())
      | some c => descendantZ s fuel c (d - 1)

/-- The error kinds a leaf constructor can raise. -/
inductive LeafErr where
  | leafConstruction : LeafErr
  | undecodableRecord : LeafErr
deriving DecidableEq

/-- Python truthiness of an optional byte string: `None` and the empty
string are falsy. -/
def truthyB : Option (List Nat) → Bool
  | none => false
  | some r => !r.isEmpty

/-- `Leaf.__init__`: the digest a new leaf would store, or the error raised.
Mirrors the source's branch structure: if `digest is None and record`
(truthiness), hash the record (`UndecodableRecord` on failure); else if
`record is None and digest`, store `bytes(digest, encoding)` via `encode`;
else raise `LeafConstructionError`. -/
def leaf_init (hash1 : Record → Except Unit Digest) (encode : Text → Digest)
    (record : Option Record) (digest : Option Text) : Except LeafErr Digest :=
  if digest.isNone && truthyB record then
    match hash1 (record.getD []) with
    | .error _ => .error .undecodableRecord
    | .ok d => .ok d
  else if record.isNone && truthyB digest then
    .ok (encode (digest.getD []))
  else
    .error .leafConstruction

/-- Placing a freshly constructed leaf into the heap at a fresh handle:
on any constructor error nothing is stored and the error propagates, so the
heap is left untouched. -/
def leaf_insert (hash1 : Record → Except Unit Digest) (encode : Text → Digest)
    (s : Store) (p : Handle) (record : Option Record) (digest : Option Text) :
    Except LeafErr Store :=
  match leaf_init hash1 encode record digest with
  | .error e => .error e
  | .ok d => .ok (setAt s p ⟨d, none, .lf⟩)

/-- The hash invariant I1 at one handle: if the node is internal then its
digest is the hash of its parents' current digests. -/
def hashInvAt (hash2 : Digest → Digest → Except Unit Digest)
    (s : Store) (n : Handle) : Prop :=
  ∀ nd a b, s n = some nd → nd.kind = .internal a b →
    ∃ na nb, s a = some na ∧ s b = some nb ∧
      hash2 na.digest nb.digest = .ok nd.digest

/-- Every leaf of `s` survives into `s'` with its digest (and leafhood)
intact. -/
def preservesLeafDigests (s s' : Store) : Prop :=
  ∀ n nd, s n = some nd → nd.kind = .lf →
    ∃ nd', s' n = some nd' ∧ nd'.digest = nd.digest ∧ nd'.kind = .lf

/-!
Part B. Modelled from the spec: the tree layer, proof generator and
verifier (`MerkleTree.update`, `auditProof`, `validateProof`) are not among
the sources under study — only their tests are — so they are modelled here
from sections 3, 4.3, 4.4 and 4.6 of the specification, at the level of
digests. Trees carry a digest at every node; internal digests are computed
by an abstract two-argument hash `h2`, leaf digests by an abstract
one-argument hash `h1`, covering every supported hash, encoding and
security configuration at once.
-/

/-- Modelled from the spec: a value tree of digests. A node stores the
digest of its subtree; internal nodes remember both operand subtrees. -/
inductive MTree where
  | leaf (d : Digest) : MTree
  | node (d : Digest) (l r : MTree) : MTree
deriving DecidableEq

/-- The digest stored at the root of a subtree. -/
def MTree.rootD : MTree → Digest
  | .leaf d => d
  | .node d _ _ => d

/-- The number of leaves of a subtree. -/
def MTree.size : MTree → Nat
  | .leaf _ => 1
  | .node _ l r => l.size + r.size

/-- Combine two subtrees under a new internal node whose digest is the hash
of the operands' digests (spec section 3, internal node). -/
def joinT (h2 : Digest → Digest → Digest) (l r : MTree) : MTree :=
  .node (h2 l.rootD r.rootD) l r

/-- Modelled from the spec (section 4.3, step 4): push a new rightmost
subtree onto the principal sub-root list, merging the two rightmost
sub-roots while they have equal leaf-count. The list is kept reversed
(rightmost sub-root first). -/
def appendLeaf (h2 : Digest → Digest → Digest) :
    List MTree → MTree → List MTree
  | [], t => [t]
  | u :: us, t =>
    if t.size = u.size then appendLeaf h2 us (joinT h2 u t)
    else t :: u :: us

/-- Modelled from the spec (section 4.3): the principal sub-root list of the
tree over `records`, built by appending one leaf per record; reversed
(rightmost first). -/
def subRootsRev (h1 : Record → Digest) (h2 : Digest → Digest → Digest)
    (records : List Record) : List MTree :=
  records.foldl (fun rs r => appendLeaf h2 rs (.leaf (h1 r))) []

/-- Modelled from the spec (sections 3 and 4.3, step 5): the right-fold of
the principal sub-roots — combine the two rightmost first, then fold
leftwards — given the reversed sub-root list. `none` on an empty tree. -/
def foldTreesRev (h2 : Digest → Digest → Digest) :
    List MTree → Option MTree
  | [] => none
  | t :: ts => some (ts.foldl (fun acc u => joinT h2 u acc) t)

/-- Modelled from the spec: the full live tree over a record sequence
(principal subtrees joined by the transient fold nodes). -/
def buildTree (h1 : Record → Digest) (h2 : Digest → Digest → Digest)
    (records : List Record) : Option MTree :=
  foldTreesRev h2 (subRootsRev h1 h2 records)

/-- Modelled from the spec: `MerkleTree.rootHash`, the digest of the current
root. -/
def rootHash (h1 : Record → Digest) (h2 : Digest → Digest → Digest)
    (records : List Record) : Option Digest :=
  (buildTree h1 h2 records).map MTree.rootD

/-- The digest of the `i`-th leaf (0-based, left to right) of a subtree. -/
def leafD : MTree → Nat → Digest
  | .leaf d, _ => d
  | .node _ l r, i => if i < l.size then leafD l i else leafD r (i - l.size)

/-- Modelled from the spec (section 4.4): the ordered sibling digests met on
the walk from leaf `i` up to the root, each signed `+1` when the sibling
lies to the right of the walk and `-1` when it lies to the left. -/
def auditPathT : MTree → Nat → List (Int × Digest)
  | .leaf _, _ => []
  | .node _ l r, i =>
    if i < l.size then auditPathT l i ++ [(1, r.rootD)]
    else auditPathT r (i - l.size) ++ [((-1 : Int), l.rootD)]

/-- Modelled from the spec (section 4.5): a proof object, reduced to the
fields the verifier reads — the start offset and the signed path. -/
structure MProof where
  proofIndex : Int
  proofPath : List (Int × Digest)
deriving DecidableEq

/-- Modelled from the spec (section 4.4): the sentinel proof returned in
place of an error for unservable requests; its empty path (and negative
offset) make the verifier reject it. -/
def sentinelProof : MProof := ⟨-1, []⟩

/-- Modelled from the spec (section 4.4): `auditProof` on an integer
index. Out-of-range indices yield the sentinel; otherwise the path starts
with the target leaf's digest followed by the signed siblings. -/
def auditProofIdx (h1 : Record → Digest) (h2 : Digest → Digest → Digest)
    (records : List Record) (i : Int) : MProof :=
  match buildTree h1 h2 records with
  | none => sentinelProof
  | some t =>
    if i < 0 ∨ (records.length : Int) ≤ i then sentinelProof
    else ⟨0, (1, leafD t i.toNat) :: auditPathT t i.toNat⟩

/-- Modelled from the spec (sections 4.4 and 9): `auditProof` on a literal
record resolves it to the leftmost leaf whose digest matches the record's
digest, then proceeds as for that index; an unmatched record yields the
sentinel. -/
def auditProofRec (h1 : Record → Digest) (h2 : Digest → Digest → Digest)
    (records : List Record) (r : Record) : MProof :=
  let ds := records.map h1
  let j := ds.findIdx (fun d => decide (d = h1 r))
  if j < records.length then auditProofIdx h1 h2 records (j : Int)
  else sentinelProof

/-- One verifier fold step (spec section 4.6, step 4): a `+1` sibling is
hashed on the right of the accumulator, a `-1` sibling on the left. -/
def foldStep (h2 : Digest → Digest → Digest) (acc : Digest)
    (sd : Int × Digest) : Digest :=
  if sd.1 = 1 then h2 acc sd.2 else h2 sd.2 acc

/-- Modelled from the spec (section 4.6): `validateProof`. Rejects an empty
path or a negative start offset; otherwise seeds the accumulator with the
digest at the start offset, folds the subsequent signed siblings, and
compares with the target. -/
def validateProof (h2 : Digest → Digest → Digest) (target : Digest)
    (pr : MProof) : Bool :=
  if pr.proofPath.isEmpty || pr.proofIndex < 0 then false
  else
    match pr.proofPath[pr.proofIndex.toNat]? with
    | none => false
    | some sd =>
      let acc := (pr.proofPath.drop (pr.proofIndex.toNat + 1)).foldl
        (foldStep h2) sd.2
      decide (acc = target)

/-- The digest coherence of a value tree: every internal digest is the hash
of its operands' digests (invariant I1 at the tree level). -/
def consistentT (h2 : Digest → Digest → Digest) : MTree → Prop
  | .leaf _ => True
  | .node d l r => d = h2 l.rootD r.rootD ∧ consistentT h2 l ∧ consistentT h2 r

/-- Total leaf-count of a sub-root list. -/
def sumSizes (ts : List MTree) : Nat := (ts.map MTree.size).sum

section TreeLemmas

variable {h1 : Record → Digest} {h2 : Digest → Digest → Digest}

theorem size_pos (t : MTree) : 0 < t.size := by
  induction t with
  | leaf d => simp [MTree.size]
  | node d l r ihl ihr => simp [MTree.size]; omega

theorem consistentT_joinT {l r : MTree} (hl : consistentT h2 l)
    (hr : consistentT h2 r) : consistentT h2 (joinT h2 l r) :=
  ⟨rfl, hl, hr⟩

/-- Replaying the audit path of a valid leaf index over a digest-coherent
tree reconstructs the root digest. -/
theorem auditPath_fold (t : MTree) (hc : consistentT h2 t) :
    ∀ i, i < t.size →
      (auditPathT t i).foldl (foldStep h2) (leafD t i) = t.rootD := by
  induction t with
  | leaf d => intro i _; simp [auditPathT, leafD, MTree.rootD]
  | node d l r ihl ihr =>
    intro i hi
    obtain ⟨hd, hcl, hcr⟩ := hc
    by_cases hil : i < l.size
    · simp only [auditPathT, leafD, if_pos hil, List.foldl_append,
        ihl hcl i hil, List.foldl_cons, List.foldl_nil]
      simp [foldStep, hd, MTree.rootD]
    · have hir : i - l.size < r.size := by
        simp [MTree.size] at hi; omega
      simp only [auditPathT, leafD, if_neg hil, List.foldl_append,
        ihr hcr _ hir, List.foldl_cons, List.foldl_nil]
      simp [foldStep, hd, MTree.rootD]

theorem appendLeaf_ne_nil (rs : List MTree) (t : MTree) :
    appendLeaf h2 rs t ≠ [] := by
  induction rs generalizing t with
  | nil => simp [appendLeaf]
  | cons u us ih =>
    simp only [appendLeaf]
    by_cases h : t.size = u.size
    · simpa [h] using ih (joinT h2 u t)
    · simp [h]

theorem sumSizes_appendLeaf (rs : List MTree) (t : MTree) :
    sumSizes (appendLeaf h2 rs t) = sumSizes rs + t.size := by
  induction rs generalizing t with
  | nil => simp [appendLeaf, sumSizes]
  | cons u us ih =>
    simp only [appendLeaf]
    by_cases h : t.size = u.size
    · simp only [if_pos h, ih (joinT h2 u t)]
      simp [sumSizes, joinT, MTree.size]; omega
    · simp [if_neg h, sumSizes]; omega

theorem consistent_appendLeaf (rs : List MTree) (t : MTree)
    (hrs : ∀ u ∈ rs, consistentT h2 u) (ht : consistentT h2 t) :
    ∀ u ∈ appendLeaf h2 rs t, consistentT h2 u := by
  induction rs generalizing t with
  | nil => simpa [appendLeaf] using ht
  | cons u us ih =>
    simp only [appendLeaf]
    by_cases h : t.size = u.size
    · simp only [if_pos h]
      exact ih (joinT h2 u t) (fun v hv => hrs v (by simp [hv]))
        (consistentT_joinT (hrs u (by simp)) ht)
    · simp only [if_neg h]
      intro v hv
      simp only [List.mem_cons] at hv
      rcases hv with rfl | rfl | hv
      · exact ht
      · exact hrs v (by simp)
      · exact hrs v (by simp [hv])

theorem subRootsRev_ne_nil (records : List Record) (hne : records ≠ []) :
    subRootsRev h1 h2 records ≠ [] := by
  unfold subRootsRev
  suffices h : ∀ rs : List MTree, rs ≠ [] ∨ records ≠ [] →
      records.foldl (fun rs r => appendLeaf h2 rs (.leaf (h1 r))) rs ≠ [] by
    exact h [] (Or.inr hne)
  clear hne
  induction records with
  | nil => intro rs h; simpa using h
  | cons r rest ih =>
    intro rs _
    simp only [List.foldl_cons]
    exact ih _ (Or.inl (appendLeaf_ne_nil _ _))

theorem sumSizes_subRootsRev (records : List Record) :
    sumSizes (subRootsRev h1 h2 records) = records.length := by
  unfold subRootsRev
  suffices h : ∀ rs : List MTree,
      sumSizes (records.foldl
        (fun rs r => appendLeaf h2 rs (.leaf (h1 r))) rs) =
      sumSizes rs + records.length by
    simpa [sumSizes] using h []
  induction records with
  | nil => intro rs; simp
  | cons r rest ih =>
    intro rs
    simp only [List.foldl_cons, ih, sumSizes_appendLeaf]
    simp [MTree.size]; omega

theorem consistent_subRootsRev (records : List Record) :
    ∀ u ∈ subRootsRev h1 h2 records, consistentT h2 u := by
  unfold subRootsRev
  suffices h : ∀ rs : List MTree, (∀ u ∈ rs, consistentT h2 u) →
      ∀ u ∈ records.foldl
        (fun rs r => appendLeaf h2 rs (.leaf (h1 r))) rs,
        consistentT h2 u by
    exact h [] (by simp)
  induction records with
  | nil => intro rs h; simpa using h
  | cons r rest ih =>
    intro rs hrs
    simp only [List.foldl_cons]
    exact ih _ (consistent_appendLeaf _ _ hrs trivial)

theorem foldTreesRev_foldl_consistent (ts : List MTree) (acc : MTree)
    (hacc : consistentT h2 acc) (hts : ∀ u ∈ ts, consistentT h2 u) :
    consistentT h2 (ts.foldl (fun acc u => joinT h2 u acc) acc) := by
  induction ts generalizing acc with
  | nil => simpa using hacc
  | cons u us ih =>
    simp only [List.foldl_cons]
    exact ih _ (consistentT_joinT (hts u (by simp)) hacc)
      (fun v hv => hts v (by simp [hv]))

theorem foldTreesRev_foldl_size (ts : List MTree) (acc : MTree) :
    (ts.foldl (fun acc u => joinT h2 u acc) acc).size =
      acc.size + sumSizes ts := by
  induction ts generalizing acc with
  | nil => simp [sumSizes]
  | cons u us ih =>
    simp only [List.foldl_cons, ih]
    simp [sumSizes, joinT, MTree.size]; omega

/-- Over a nonempty record sequence the build succeeds, producing a
digest-coherent tree with one leaf per record. -/
theorem buildTree_ok (records : List Record) (hne : records ≠ []) :
    ∃ t, buildTree h1 h2 records = some t ∧ consistentT h2 t ∧
      t.size = records.length := by
  have hsub := @subRootsRev_ne_nil h1 h2 records hne
  obtain ⟨t0, ts, hts⟩ := List.exists_cons_of_ne_nil hsub
  refine ⟨ts.foldl (fun acc u => joinT h2 u acc) t0, ?_, ?_, ?_⟩
  · simp [buildTree, hts, foldTreesRev]
  · exact foldTreesRev_foldl_consistent ts t0
      (by have := @consistent_subRootsRev h1 h2 records
          exact this t0 (by simp [hts]))
      (fun v hv => consistent_subRootsRev records v
        (by rw [hts]; exact List.mem_cons_of_mem _ hv))
  · have hsum := @sumSizes_subRootsRev h1 h2 records
    rw [hts] at hsum
    simp [sumSizes] at hsum
    simp [foldTreesRev_foldl_size, sumSizes]
    omega

/-- The sentinel proof fails verification against every target. -/
theorem validate_sentinel (h2 : Digest → Digest → Digest) (target : Digest) :
    validateProof h2 target sentinelProof = false := by
  simp [validateProof, sentinelProof]

/-- An in-range index-based audit proof verifies against the root digest of
the tree it was extracted from. -/
theorem validate_auditProofIdx {t : MTree} (records : List Record)
    (hbt : buildTree h1 h2 records = some t) (hc : consistentT h2 t)
    (hsize : t.size = records.length) (j : Nat) (hj : j < records.length) :
    validateProof h2 t.rootD (auditProofIdx h1 h2 records (j : Int)) = true := by
  have hcond : ¬((j : Int) < 0 ∨ (records.length : Int) ≤ (j : Int)) := by
    push_neg
    omega
  simp only [auditProofIdx, hbt]
  rw [if_neg hcond]
  have hfold := auditPath_fold t hc j (by omega)
  simp [validateProof, hfold]

end TreeLemmas

/-- A concrete injective record hash, for instantiating the abstract hash
engine in closed statements. -/
def demoH1 : Record → Digest := fun r => 0 :: r

/-- A concrete two-argument hash, for instantiating the abstract hash engine
in closed statements. -/
def demoH2 : Digest → Digest → Digest := fun a b => 1 :: (a ++ b)

/-- C2: audit soundness — for every tree built from any record sequence
under any hash configuration and every index `i < length`, the index-based
audit proof verifies against the tree's root digest, and likewise the
record-based audit proof of any appended record. -/
theorem audit_soundness_C2 (h1 : Record → Digest)
    (h2 : Digest → Digest → Digest) (records : List Record) (i : Nat)
    (r : Record) (hi : i < records.length) (hr : r ∈ records) :
    ∃ root, rootHash h1 h2 records = some root ∧
      validateProof h2 root (auditProofIdx h1 h2 records (i : Int)) = true ∧
      validateProof h2 root (auditProofRec h1 h2 records r) = true := by
  have hne : records ≠ [] := by
    intro h
    simp [h] at hi
  obtain ⟨t, hbt, hc, hsize⟩ := @buildTree_ok h1 h2 records hne
  refine ⟨t.rootD, by simp [rootHash, hbt], ?_, ?_⟩
  · exact validate_auditProofIdx records hbt hc hsize i hi
  · unfold auditProofRec
    have hex : ∃ x ∈ records.map h1, (fun d => decide (d = h1 r)) x := by
      exact ⟨h1 r, List.mem_map_of_mem h1 hr, by simp⟩
    have hj : (records.map h1).findIdx (fun d => decide (d = h1 r)) <
        records.length := by
      have := List.findIdx_lt_length_of_exists hex
      simpa using this
    simp only [if_pos hj]
    exact validate_auditProofIdx records hbt hc hsize _ hj

/-- Witness for C2 on a three-record tree with a concrete hash engine. -/
theorem audit_soundness_C2_witness :
    ∃ root, rootHash demoH1 demoH2 [[10], [20], [30]] = some root ∧
      validateProof demoH2 root
        (auditProofIdx demoH1 demoH2 [[10], [20], [30]] ((2 : Nat) : Int)) =
        true ∧
      validateProof demoH2 root
        (auditProofRec demoH1 demoH2 [[10], [20], [30]] [20]) = true :=
  audit_soundness_C2 demoH1 demoH2 [[10], [20], [30]] 2 [20]
    (by decide) (by decide)

/-- C3: audit rejection — out-of-range indices (negative or beyond the
length) and unmatched records make `auditProof` return the sentinel proof
instead of raising, and the sentinel fails verification against every
target. -/
theorem audit_rejects_C3 (h1 : Record → Digest)
    (h2 : Digest → Digest → Digest) (records : List Record) (target : Digest)
    (i : Int) (r : Record) (hi : i < 0 ∨ (records.length : Int) ≤ i)
    (hr : h1 r ∉ records.map h1) :
    auditProofIdx h1 h2 records i = sentinelProof ∧
    auditProofRec h1 h2 records r = sentinelProof ∧
    validateProof h2 target (auditProofIdx h1 h2 records i) = false ∧
    validateProof h2 target (auditProofRec h1 h2 records r) = false := by
  have hidx : auditProofIdx h1 h2 records i = sentinelProof := by
    cases hbt : buildTree h1 h2 records with
    | none => simp only [auditProofIdx, hbt]
    | some t =>
      simp only [auditProofIdx, hbt]
      rw [if_pos hi]
  have hjlen : (records.map h1).findIdx (fun d => decide (d = h1 r)) =
      records.length := by
    have : (records.map h1).findIdx (fun d => decide (d = h1 r)) =
        (records.map h1).length := by
      rw [List.findIdx_eq_length]
      intro x hx
      simp only [decide_eq_false_iff_not]
      intro hxr
      exact hr (hxr ▸ hx)
    simpa using this
  have hrec : auditProofRec h1 h2 records r = sentinelProof := by
    unfold auditProofRec
    simp only [hjlen, lt_irrefl, if_neg, ite_false]
  exact ⟨hidx, hrec, by rw [hidx]; exact validate_sentinel h2 target,
    by rw [hrec]; exact validate_sentinel h2 target⟩

/-- Witness for C3: a negative index and an unrecorded record on a concrete
two-record tree. -/
theorem audit_rejects_C3_witness :
    auditProofIdx demoH1 demoH2 [[10], [20]] (-1) = sentinelProof ∧
    auditProofRec demoH1 demoH2 [[10], [20]] [99] = sentinelProof ∧
    validateProof demoH2 [7] (auditProofIdx demoH1 demoH2 [[10], [20]] (-1)) =
      false ∧
    validateProof demoH2 [7] (auditProofRec demoH1 demoH2 [[10], [20]] [99]) =
      false :=
  audit_rejects_C3 demoH1 demoH2 [[10], [20]] [7] (-1) [99]
    (by decide) (by decide)

/-!
Helper lemmas about the heap operations of Part A.
-/

theorem setAt_lookup_eq (s : Store) (n : Handle) (nd : NData) :
    setAt s n nd n = some nd := by
  simp [setAt]

theorem setAt_lookup_ne (s : Store) (n m : Handle) (nd : NData)
    (h : m ≠ n) : setAt s n nd m = s m := by
  simp [setAt, h]

theorem set_child_lookup_self (s : Store) (n c : Handle) (nd : NData)
    (h : s n = some nd) :
    set_child s n c n = some { nd with child := some c } := by
  simp [set_child, h, setAt]

theorem set_child_lookup_other (s : Store) (n c m : Handle) (h : m ≠ n) :
    set_child s n c m = s m := by
  unfold set_child
  cases s n with
  | none => rfl
  | some nd => simp [setAt, h]

section NodeOps

variable {hash2 : Digest → Digest → Except Unit Digest}

/-- The complete effect of a successful internal-node construction on the
heap: the new node at `p`, the re-pointed child links of the operands, and
the untouched rest. -/
theorem node_init_run {s : Store} {p a b : Handle} {na nb : NData}
    {d : Digest} (hp : s p = none) (ha : s a = some na)
    (hb : s b = some nb) (hh : hash2 na.digest nb.digest = .ok d) :
    ∃ s', node_init hash2 s p a b = .ok (s', p) ∧
      s' p = some ⟨d, none, .internal a b⟩ ∧
      s' a = some { na with child := some p } ∧
      s' b = some { nb with child := some p } ∧
      (∀ m, m ≠ p → m ≠ a → m ≠ b → s' m = s m) := by
  have hap : a ≠ p := by
    intro h
    rw [h, hp] at ha
    cases ha
  have hbp : b ≠ p := by
    intro h
    rw [h, hp] at hb
    cases hb
  refine ⟨set_child (set_child (setAt s p ⟨d, none, .internal a b⟩) a p) b p,
    by simp only [node_init, ha, hb, hh], ?_, ?_, ?_, ?_⟩
  · rw [set_child_lookup_other _ _ _ _ (Ne.symm hbp),
      set_child_lookup_other _ _ _ _ (Ne.symm hap), setAt_lookup_eq]
  · by_cases hba : b = a
    · subst hba
      have hnanb : na = nb := by
        rw [ha] at hb
        exact Option.some.inj hb
      subst hnanb
      have h1 : setAt s p ⟨d, none, .internal b b⟩ b = some na := by
        rw [setAt_lookup_ne _ _ _ _ hbp]
        exact ha
      rw [set_child_lookup_self _ _ _ _
        (by rw [set_child_lookup_self _ _ _ _ h1])]
    · rw [set_child_lookup_other _ _ _ _ (fun h => hba h.symm),
        set_child_lookup_self _ _ _ _
          (by rw [setAt_lookup_ne _ _ _ _ hap]; exact ha)]
  · have h1 : setAt s p ⟨d, none, .internal a b⟩ b = some nb := by
      rw [setAt_lookup_ne _ _ _ _ hbp]
      exact hb
    by_cases hba : b = a
    · subst hba
      have hnanb : na = nb := by
        rw [ha] at hb
        exact Option.some.inj hb
      subst hnanb
      rw [set_child_lookup_self _ _ _ _
        (by rw [set_child_lookup_self _ _ _ _ h1])]
    · rw [set_child_lookup_self _ _ _ _
        (by rw [set_child_lookup_other _ _ _ _ hba]; exact h1)]
  · intro m hmp hma hmb
    rw [set_child_lookup_other _ _ _ _ hmb, set_child_lookup_other _ _ _ _ hma,
      setAt_lookup_ne _ _ _ _ hmp]

/-- The complete effect of a successful digest recalculation: only the
receiver's digest field changes. -/
theorem recalculate_hash_run {s : Store} {n : Handle} {n2 x y : NData}
    {xa yb : Handle} {e : Digest} (hn : s n = some n2)
    (hkind : n2.kind = .internal xa yb) (hxa : s xa = some x)
    (hyb : s yb = some y) (hh : hash2 x.digest y.digest = .ok e) :
    recalculate_hash hash2 s n = .ok (setAt s n { n2 with digest := e }) := by
  simp only [recalculate_hash, hn, hkind, hxa, hyb, hh]

/-- Anatomy of any successful digest recalculation. -/
theorem recalculate_hash_shape {s s' : Store} {n : Handle}
    (hrec : recalculate_hash hash2 s n = .ok s') :
    ∃ n2 xa yb x y e, s n = some n2 ∧ n2.kind = .internal xa yb ∧
      s xa = some x ∧ s yb = some y ∧ hash2 x.digest y.digest = .ok e ∧
      s' = setAt s n { n2 with digest := e } := by
  cases hn : s n with
  | none => simp [recalculate_hash, hn] at hrec
  | some n2 =>
    cases hkind : n2.kind with
    | lf => simp [recalculate_hash, hn, hkind] at hrec
    | internal xa yb =>
      cases hxa : s xa with
      | none => simp [recalculate_hash, hn, hkind, hxa] at hrec
      | some x =>
        cases hyb : s yb with
        | none => simp [recalculate_hash, hn, hkind, hxa, hyb] at hrec
        | some y =>
          cases hh : hash2 x.digest y.digest with
          | error u =>
            simp [recalculate_hash, hn, hkind, hxa, hyb, hh] at hrec
          | ok e =>
            simp only [recalculate_hash, hn, hkind, hxa, hyb, hh] at hrec
            refine ⟨n2, xa, yb, x, y, e, rfl, hkind, hxa, hyb, hh, ?_⟩
            rw [hkind]
            exact (Except.ok.inj hrec).symm

end NodeOps

/-- Unfolding `follow` one step at the inner end instead of the outer end. -/
theorem follow_succ_inside (s : Store) :
    ∀ (k : Nat) (n : Handle), follow s (k + 1) n =
      match childOf s n with
      | none => none
      | some c => follow s k c := by
  intro k
  induction k with
  | zero =>
    intro n
    simp only [follow, Option.bind]
    cases childOf s n <;> rfl
  | succ k ih =>
    intro n
    show (follow s (k + 1) n).bind (childOf s) = _
    rw [ih n]
    cases hc : childOf s n with
    | none => rfl
    | some c => rfl

/-- `descendant` computes exactly the `k`-step child iteration. -/
theorem descendant_eq_follow (s : Store) :
    ∀ (k : Nat) (n : Handle), descendant s n k =
      match follow s k n with
      | none => .error ()
      | some m => .ok m := by
  intro k
  induction k with
  | zero => intro n; rfl
  | succ k ih =>
    intro n
    rw [follow_succ_inside]
    show (match childOf s n with
      | none => Except.error ()
      | some c => descendant s c k) = _
    cases hc : childOf s n with
    | none => rfl
    | some c => exact ih c

/-- A concrete failing record hash (every record undecodable). -/
def demoHashFail : Record → Except Unit Digest := fun _ => .error ()

/-- A concrete record hash for the heap layer. -/
def demoHash1E : Record → Except Unit Digest := fun r => .ok (0 :: r)

/-- A concrete two-argument hash for the heap layer. -/
def demoHash2E : Digest → Digest → Except Unit Digest :=
  fun a b => .ok (1 :: (a ++ b))

/-- A concrete encoding of text into bytes. -/
def demoEncode : Text → Digest := fun t => t

/-- A small concrete heap: leaves at handles 0 and 1 whose child is the
internal node at handle 2 over them. -/
def demoStore : Store := fun n =>
  if n = 0 then some ⟨[5], some 2, .lf⟩
  else if n = 1 then some ⟨[7], some 2, .lf⟩
  else if n = 2 then some ⟨[1, 5, 7], none, .internal 0 1⟩
  else none

/-- `demoStore` with a stale digest at the internal node, as left by a
re-pointed link before recalculation. -/
def demoStoreStale : Store := fun n =>
  if n = 0 then some ⟨[5], some 2, .lf⟩
  else if n = 1 then some ⟨[7], some 2, .lf⟩
  else if n = 2 then some ⟨[9], none, .internal 0 1⟩
  else none

/-- C1: every internal node satisfies `digest = H(left.digest, right.digest)`
at stable points — constructing an internal node establishes the equation at
the new node, and `recalculate_hash` re-establishes it at any internal node
(also after its `left` or `right` link was re-pointed) provided the node is
not its own operand. -/
theorem internal_digest_invariant_C1
    (hash2 : Digest → Digest → Except Unit Digest)
    (s : Store) (p a b : Handle) (na nb : NData) (d : Digest)
    (hp : s p = none) (ha : s a = some na) (hb : s b = some nb)
    (hh : hash2 na.digest nb.digest = .ok d)
    (s2 : Store) (n xa yb : Handle) (n2 x y : NData) (e : Digest)
    (hn : s2 n = some n2) (hkind : n2.kind = .internal xa yb)
    (hxa : s2 xa = some x) (hyb : s2 yb = some y)
    (hnx : n ≠ xa) (hny : n ≠ yb)
    (hh2 : hash2 x.digest y.digest = .ok e) :
    (∃ s', node_init hash2 s p a b = .ok (s', p) ∧ hashInvAt hash2 s' p) ∧
    (∃ s3, recalculate_hash hash2 s2 n = .ok s3 ∧ hashInvAt hash2 s3 n) := by
  constructor
  · obtain ⟨s', hrun, hsp, hsa, hsb, hframe⟩ := node_init_run hp ha hb hh
    refine ⟨s', hrun, ?_⟩
    intro nd a' b' hnd hk
    rw [hsp] at hnd
    cases hnd
    have hk2 : NKind.internal a b = NKind.internal a' b' := hk
    injection hk2 with h1 h2
    subst h1
    subst h2
    exact ⟨_, _, hsa, hsb, hh⟩
  · refine ⟨setAt s2 n { n2 with digest := e },
      recalculate_hash_run hn hkind hxa hyb hh2, ?_⟩
    intro nd a' b' hnd hk
    rw [setAt_lookup_eq] at hnd
    cases hnd
    have hk2 : n2.kind = NKind.internal a' b' := hk
    rw [hkind] at hk2
    injection hk2 with h1 h2
    subst h1
    subst h2
    refine ⟨x, y, ?_, ?_, hh2⟩
    · rw [setAt_lookup_ne _ _ _ _ (Ne.symm hnx)]
      exact hxa
    · rw [setAt_lookup_ne _ _ _ _ (Ne.symm hny)]
      exact hyb

/-- Witness for C1: constructing over the two demo leaves, and recalculating
the stale internal node of the demo heap. -/
theorem internal_digest_invariant_C1_witness :
    (∃ s', node_init demoHash2E demoStore 3 0 1 = .ok (s', 3) ∧
      hashInvAt demoHash2E s' 3) ∧
    (∃ s3, recalculate_hash demoHash2E demoStoreStale 2 = .ok s3 ∧
      hashInvAt demoHash2E s3 2) :=
  internal_digest_invariant_C1 demoHash2E demoStore 3 0 1
    ⟨[5], some 2, .lf⟩ ⟨[7], some 2, .lf⟩ [1, 5, 7] rfl rfl rfl rfl
    demoStoreStale 2 0 1 ⟨[9], none, .internal 0 1⟩ ⟨[5], some 2, .lf⟩
    ⟨[7], some 2, .lf⟩ [1, 5, 7] rfl rfl rfl rfl (by decide) (by decide) rfl

/-- C4: a successful internal-node construction over operands `a`, `b`
leaves the new node with `left = a` and `right = b` and re-points both
operands' `child` links to the new node. -/
theorem node_links_C4 (hash2 : Digest → Digest → Except Unit Digest)
    (s : Store) (p a b : Handle) (na nb : NData) (d : Digest)
    (hp : s p = none) (ha : s a = some na) (hb : s b = some nb)
    (hh : hash2 na.digest nb.digest = .ok d) :
    ∃ s', node_init hash2 s p a b = .ok (s', p) ∧
      (∃ nd, s' p = some nd ∧ nd.kind = .internal a b) ∧
      (∃ na', s' a = some na' ∧ na'.child = some p) ∧
      (∃ nb', s' b = some nb' ∧ nb'.child = some p) := by
  obtain ⟨s', hrun, hsp, hsa, hsb, _⟩ := node_init_run hp ha hb hh
  exact ⟨s', hrun, ⟨_, hsp, rfl⟩, ⟨_, hsa, rfl⟩, ⟨_, hsb, rfl⟩⟩

/-- Witness for C4 on the demo heap, joining the two leaves at handle 3. -/
theorem node_links_C4_witness :
    ∃ s', node_init demoHash2E demoStore 3 0 1 = .ok (s', 3) ∧
      (∃ nd, s' 3 = some nd ∧ nd.kind = .internal 0 1) ∧
      (∃ na', s' 0 = some na' ∧ na'.child = some 3) ∧
      (∃ nb', s' 1 = some nb' ∧ nb'.child = some 3) :=
  node_links_C4 demoHash2E demoStore 3 0 1 ⟨[5], some 2, .lf⟩
    ⟨[7], some 2, .lf⟩ [1, 5, 7] rfl rfl rfl rfl

/-- C5: `descendant` follows the `child` link exactly the requested number
of times — degree 0 returns the node itself, a successful result is
precisely the `k`-step iterate of the child link, and `NoDescendant` is
raised precisely when the child chain ends before `k` steps. -/
theorem descendant_C5 (s : Store) (n : Handle) :
    descendant s n 0 = .ok n ∧
    (∀ k m, descendant s n k = .ok m ↔ follow s k n = some m) ∧
    (∀ k, descendant s n k = .error () ↔ follow s k n = none) := by
  refine ⟨rfl, ?_, ?_⟩
  · intro k m
    rw [descendant_eq_follow s k n]
    cases h : follow s k n <;> simp
  · intro k
    rw [descendant_eq_follow s k n]
    cases h : follow s k n <;> simp

/-- Witness for C5, instantiated at a leaf of the demo heap. -/
theorem descendant_C5_witness :
    descendant demoStore 0 0 = .ok 0 ∧
    (∀ k m, descendant demoStore 0 k = .ok m ↔
      follow demoStore k 0 = some m) ∧
    (∀ k, descendant demoStore 0 k = .error () ↔
      follow demoStore k 0 = none) :=
  descendant_C5 demoStore 0

/-- C10: on a finite child chain, `descendant` at any negative degree
terminates with `NoDescendant` (uniformly in any sufficient recursion
fuel), never returning a node. -/
theorem descendant_negative_C10 (s : Store) (n : Handle) (k : Nat) (d : Int)
    (fuel : Nat) (hfin : follow s k n = none) (hd : d < 0)
    (hfuel : k ≤ fuel) :
    descendantZ s fuel n d = some (.error ()) := by
  induction k generalizing n d fuel with
  | zero => simp [follow] at hfin
  | succ k ih =>
    rw [follow_succ_inside] at hfin
    obtain ⟨f, rfl⟩ : ∃ f, fuel = f + 1 := ⟨fuel - 1, by omega⟩
    have hd0 : ¬d = 0 := by omega
    cases hc : childOf s n with
    | none => simp [descendantZ, hd0, hc]
    | some c =>
      rw [hc] at hfin
      simp only [descendantZ, if_neg hd0, hc]
      exact ih c (d - 1) f hfin (by omega) (by omega)

/-- Witness for C10: degree `-1` from a leaf of the demo heap, whose chain
ends after two steps. -/
theorem descendant_negative_C10_witness :
    descendantZ demoStore 2 0 (-1) = some (.error ()) :=
  descendant_negative_C10 demoStore 0 2 (-1) 2 (by decide) (by decide)
    (by decide)

/-- C6, amended: the constructor raises `LeafConstructionError` exactly when
it is not the case that exactly one of `record`/`digest` is provided with a
truthy (non-empty) value — providing both, providing neither, and providing
exactly one but empty all raise, while a single non-empty argument never
raises this error. -/
theorem leaf_construction_C6 (hash1 : Record → Except Unit Digest)
    (encode : Text → Digest) (record : Option Record)
    (digest : Option Text) :
    leaf_init hash1 encode record digest = .error .leafConstruction ↔
      ¬((digest = none ∧ ∃ r, record = some r ∧ r ≠ []) ∨
        (record = none ∧ ∃ t, digest = some t ∧ t ≠ [])) := by
  rcases record with _ | r <;> rcases digest with _ | t
  · simp [leaf_init, truthyB]
  · by_cases ht : t = []
    · subst ht
      simp [leaf_init, truthyB]
    · simp [leaf_init, truthyB, ht]
  · by_cases hr : r = []
    · subst hr
      simp [leaf_init, truthyB]
    · cases hh : hash1 r <;>
        simp [leaf_init, truthyB, hr, hh]
  · simp [leaf_init, truthyB]

/-- Witness for C6 at a concrete non-empty record and absent digest. -/
theorem leaf_construction_C6_witness :
    leaf_init demoHash1E demoEncode (some [3]) none =
      .error .leafConstruction ↔
      ¬(((none : Option Text) = none ∧
          ∃ r, (some [3] : Option Record) = some r ∧ r ≠ []) ∨
        ((some [3] : Option Record) = none ∧
          ∃ t, (none : Option Text) = some t ∧ t ≠ [])) :=
  leaf_construction_C6 demoHash1E demoEncode (some [3]) none

/-- C6, counterexample to the claim as stated: exactly one argument is
provided (the record; the digest is absent), yet the constructor raises
`LeafConstructionError`, because the provided record is the empty byte
string and the source checks truthiness, not presence. -/
theorem leaf_construction_C6_counterexample :
    (some ([] : Record)).isSome = true ∧
    (none : Option Text).isNone = true ∧
    leaf_init demoHash1E demoEncode (some ([] : Record)) none =
      .error .leafConstruction :=
  ⟨rfl, rfl, rfl⟩

/-- C7: an undecodable record makes the leaf constructor raise
`UndecodableRecord` before any digest is stored — no leaf is created, and a
heap that was to receive the leaf is left untouched. -/
theorem undecodable_record_C7 (hash1 : Record → Except Unit Digest)
    (encode : Text → Digest) (s : Store) (p : Handle) (r : Record)
    (hr : r ≠ []) (hfail : hash1 r = .error ()) :
    leaf_init hash1 encode (some r) none = .error .undecodableRecord ∧
    leaf_insert hash1 encode s p (some r) none =
      .error .undecodableRecord := by
  have h1 : leaf_init hash1 encode (some r) none =
      .error .undecodableRecord := by
    simp [leaf_init, truthyB, hr, hfail]
  exact ⟨h1, by simp [leaf_insert, h1]⟩

/-- Witness for C7 with a hash engine that rejects every record. -/
theorem undecodable_record_C7_witness :
    leaf_init demoHashFail demoEncode (some [3]) none =
      .error .undecodableRecord ∧
    leaf_insert demoHashFail demoEncode demoStore 3 (some [3]) none =
      .error .undecodableRecord :=
  undecodable_record_C7 demoHashFail demoEncode demoStore 3 [3]
    (by decide) rfl

/-- C8: `is_left_parent` is true exactly when the node has a child and is
that child's `left` link, symmetrically for `is_right_parent`, and a node
with no child gets `false` from both queries rather than an error. The
stated well-formedness premise — a present child is an internal node — is
what the containing tree always guarantees. -/
theorem parent_queries_C8 (s : Store) (n : Handle) (nd : NData)
    (hn : s n = some nd)
    (hwf : ∀ c, nd.child = some c →
      ∃ cd xa yb, s c = some cd ∧ cd.kind = .internal xa yb) :
    (is_left_parent s n = .ok true ↔ ∃ c cd xa yb, nd.child = some c ∧
      s c = some cd ∧ cd.kind = .internal xa yb ∧ n = xa) ∧
    (is_right_parent s n = .ok true ↔ ∃ c cd xa yb, nd.child = some c ∧
      s c = some cd ∧ cd.kind = .internal xa yb ∧ n = yb) ∧
    (nd.child = none →
      is_left_parent s n = .ok false ∧ is_right_parent s n = .ok false) := by
  cases hch : nd.child with
  | none =>
    refine ⟨?_, ?_, fun _ => ?_⟩ <;>
      simp [is_left_parent, is_right_parent, hn, hch]
  | some c =>
    obtain ⟨cd, xa, yb, hc, hk⟩ := hwf c hch
    refine ⟨?_, ?_, ?_⟩
    · simp [is_left_parent, hn, hch, hc, hk, eq_comm]
    · simp [is_right_parent, hn, hch, hc, hk, eq_comm]
    · simp [hch]

/-- Witness for C8 at the left leaf of the demo heap. -/
theorem parent_queries_C8_witness :
    (is_left_parent demoStore 0 = .ok true ↔
      ∃ c cd xa yb, (⟨[5], some 2, .lf⟩ : NData).child = some c ∧
        demoStore c = some cd ∧ cd.kind = .internal xa yb ∧ 0 = xa) ∧
    (is_right_parent demoStore 0 = .ok true ↔
      ∃ c cd xa yb, (⟨[5], some 2, .lf⟩ : NData).child = some c ∧
        demoStore c = some cd ∧ cd.kind = .internal xa yb ∧ 0 = yb) ∧
    ((⟨[5], some 2, .lf⟩ : NData).child = none →
      is_left_parent demoStore 0 = .ok false ∧
      is_right_parent demoStore 0 = .ok false) :=
  parent_queries_C8 demoStore 0 ⟨[5], some 2, .lf⟩ rfl
    (fun c hc => by
      cases hc
      exact ⟨⟨[1, 5, 7], none, .internal 0 1⟩, 0, 1, rfl, rfl⟩)

theorem preserves_refl (st : Store) : preservesLeafDigests st st :=
  fun _ md hm hlf => ⟨md, hm, rfl, hlf⟩

theorem preserves_trans {s1 s2 s3 : Store}
    (h12 : preservesLeafDigests s1 s2) (h23 : preservesLeafDigests s2 s3) :
    preservesLeafDigests s1 s3 := by
  intro m md hm hlf
  obtain ⟨md2, hm2, hd2, hk2⟩ := h12 m md hm hlf
  obtain ⟨md3, hm3, hd3, hk3⟩ := h23 m md2 hm2 hk2
  exact ⟨md3, hm3, by rw [hd3, hd2], hk3⟩

theorem preserves_setAt {st : Store} {m : Handle} {nd nd' : NData}
    (hm : st m = some nd) (hdig : nd'.digest = nd.digest)
    (hk : nd.kind = .lf → nd'.kind = .lf) :
    preservesLeafDigests st (setAt st m nd') := by
  intro mm md hmm hlf
  by_cases h : mm = m
  · subst h
    rw [hmm] at hm
    cases Option.some.inj hm
    exact ⟨nd', setAt_lookup_eq _ _ _, hdig, hk hlf⟩
  · rw [setAt_lookup_ne _ _ _ _ h]
    exact ⟨md, hmm, rfl, hlf⟩

theorem preserves_setAt_fresh {st : Store} {p : Handle} {nd' : NData}
    (hp : st p = none) : preservesLeafDigests st (setAt st p nd') := by
  intro mm md hmm hlf
  by_cases h : mm = p
  · subst h
    rw [hmm] at hp
    cases hp
  · rw [setAt_lookup_ne _ _ _ _ h]
    exact ⟨md, hmm, rfl, hlf⟩

theorem preserves_set_child (st : Store) (m c : Handle) :
    preservesLeafDigests st (set_child st m c) := by
  unfold set_child
  cases hm : st m with
  | none => exact preserves_refl st
  | some nd => exact preserves_setAt hm rfl (fun h => h)

theorem preserves_setAt_nonleaf {st : Store} {m : Handle} {nd nd' : NData}
    (hm : st m = some nd) (hk : nd.kind ≠ .lf) :
    preservesLeafDigests st (setAt st m nd') := by
  intro mm md hmm hlf
  by_cases h : mm = m
  · subst h
    rw [hmm] at hm
    cases Option.some.inj hm
    exact absurd hlf hk
  · rw [setAt_lookup_ne _ _ _ _ h]
    exact ⟨md, hmm, rfl, hlf⟩

theorem preserves_set_left (st : Store) (m l : Handle) :
    preservesLeafDigests st (set_left st m l) := by
  unfold set_left
  cases hm : st m with
  | none => exact preserves_refl st
  | some nd =>
    obtain ⟨dg, ch, k⟩ := nd
    cases k with
    | lf => exact preserves_refl st
    | internal a b =>
      exact preserves_setAt_nonleaf hm (fun h => by cases h)

theorem preserves_set_right (st : Store) (m r : Handle) :
    preservesLeafDigests st (set_right st m r) := by
  unfold set_right
  cases hm : st m with
  | none => exact preserves_refl st
  | some nd =>
    obtain ⟨dg, ch, k⟩ := nd
    cases k with
    | lf => exact preserves_refl st
    | internal a b =>
      exact preserves_setAt_nonleaf hm (fun h => by cases h)

theorem preserves_recalculate {hash2 : Digest → Digest → Except Unit Digest}
    {s2 s3 : Store} {n : Handle}
    (hrec : recalculate_hash hash2 s2 n = .ok s3) :
    preservesLeafDigests s2 s3 := by
  obtain ⟨n2, xa, yb, x, y, e, hn, hkind, _, _, _, hs3⟩ :=
    recalculate_hash_shape hrec
  subst hs3
  refine preserves_setAt_nonleaf hn ?_
  rw [hkind]
  intro h
  cases h

/-- C9: a record-based leaf stores the record's hash, a digest-based leaf
stores the supplied digest (the bytes of the supplied text under the
configured encoding), and a stored leaf's digest is never changed by any
heap operation — internal-node construction, digest recalculation, or
re-pointing of `child`/`left`/`right` links. -/
theorem leaf_digest_C9 (hash1 : Record → Except Unit Digest)
    (encode : Text → Digest) (hash2 : Digest → Digest → Except Unit Digest)
    (r : Record) (dg : Digest) (t : Text)
    (hr : r ≠ []) (hok : hash1 r = .ok dg) (ht : t ≠ [])
    (s : Store) (p a b : Handle) (na nb : NData) (d : Digest)
    (hp : s p = none) (ha : s a = some na) (hb : s b = some nb)
    (hh : hash2 na.digest nb.digest = .ok d)
    (s2 s3 : Store) (n : Handle)
    (hrec : recalculate_hash hash2 s2 n = .ok s3) :
    leaf_init hash1 encode (some r) none = .ok dg ∧
    leaf_init hash1 encode none (some t) = .ok (encode t) ∧
    (∃ s', node_init hash2 s p a b = .ok (s', p) ∧
      preservesLeafDigests s s') ∧
    preservesLeafDigests s2 s3 ∧
    (∀ st m c, preservesLeafDigests st (set_child st m c)) ∧
    (∀ st m l, preservesLeafDigests st (set_left st m l)) ∧
    (∀ st m q, preservesLeafDigests st (set_right st m q)) := by
  refine ⟨?_, ?_, ?_, preserves_recalculate hrec,
    preserves_set_child, preserves_set_left, preserves_set_right⟩
  · simp [leaf_init, truthyB, hr, hok]
  · simp [leaf_init, truthyB, ht]
  · refine ⟨set_child (set_child (setAt s p ⟨d, none, .internal a b⟩) a p)
      b p, by simp only [node_init, ha, hb, hh], ?_⟩
    exact preserves_trans (preserves_setAt_fresh hp)
      (preserves_trans (preserves_set_child _ a p) (preserves_set_child _ b p))

/-- Witness for C9 on the demo heap, with a concrete record, text digest,
construction and recalculation. -/
theorem leaf_digest_C9_witness :
    leaf_init demoHash1E demoEncode (some [3]) none = .ok [0, 3] ∧
    leaf_init demoHash1E demoEncode none (some [4]) =
      .ok (demoEncode [4]) ∧
    (∃ s', node_init demoHash2E demoStore 3 0 1 = .ok (s', 3) ∧
      preservesLeafDigests demoStore s') ∧
    preservesLeafDigests demoStoreStale
      (setAt demoStoreStale 2 ⟨[1, 5, 7], none, .internal 0 1⟩) ∧
    (∀ st m c, preservesLeafDigests st (set_child st m c)) ∧
    (∀ st m l, preservesLeafDigests st (set_left st m l)) ∧
    (∀ st m q, preservesLeafDigests st (set_right st m q)) :=
  leaf_digest_C9 demoHash1E demoEncode demoHash2E [3] [0, 3] [4]
    (by decide) rfl (by decide) demoStore 3 0 1 ⟨[5], some 2, .lf⟩
    ⟨[7], some 2, .lf⟩ [1, 5, 7] rfl rfl rfl rfl demoStoreStale
    (setAt demoStoreStale 2 ⟨[1, 5, 7], none, .internal 0 1⟩) 2 rfl

end Merklepack
